import Mathlib

set_option maxRecDepth 10000

/-!
# Verification of the pngme chunk codec

Shallow embedding of `src/chunk_type.rs` and `src/chunk.rs` from the
pngme repository, together with proofs of the specified properties of
the chunk codec.

Modelling conventions:
* a byte is a `Nat` (values `< 256` where a claim speaks of byte
  buffers, via the `IsBytes` predicate);
* `u32` arithmetic is carried out on `Nat` with an explicit `% 2 ^ 32`
  exactly where the Rust code casts or wraps (the `data.len() as u32`
  cast in `Chunk::new` and the `value.len() as u32 - 12` wrapping
  subtraction in `Chunk::try_from`, release semantics);
* the lazily initialised 256-entry CRC table (`OnceLock`) is modelled by
  its generating function `crcEntry`: every index used is `< 256`, so
  `table[i]` is `crcEntry i`;
* the boxed string errors of the source are modelled by the inductive
  `Err`, one constructor per distinct error message the code builds
  (the `u32` complement `!x` is `x ^^^ 0xffffffff`).
-/

namespace Pngme

/-- `u8::is_ascii_uppercase`: `b'A'..=b'Z'`. -/
def isAsciiUppercase (b : Nat) : Bool := 65 ≤ b && b ≤ 90

/-- `u8::is_ascii_lowercase`: `b'a'..=b'z'`. -/
def isAsciiLowercase (b : Nat) : Bool := 97 ≤ b && b ≤ 122

/-- `u8::is_ascii_alphabetic`: uppercase or lowercase ASCII letter. -/
def isAsciiAlphabetic (b : Nat) : Bool := isAsciiUppercase b || isAsciiLowercase b

/-- The buffer is a genuine byte buffer: every element is `< 256`. -/
def IsBytes (v : List Nat) : Prop := ∀ b ∈ v, b < 256

instance (v : List Nat) : Decidable (IsBytes v) := List.decidableBAll _ v

/-- The distinct errors built by `chunk.rs` / `chunk_type.rs`, one
constructor per error message (`crcMismatch` carries the two numbers
interpolated into `"Invalid chunk CRC: read: {crc}, calculated: {calculated_crc}"`).
Both the short-buffer read of the length field and the failed length
check produce the same `"Invalid chunk length"` message, hence the same
constructor `invalidLength`. -/
inductive Err where
  /-- `"Invalid chunk length"` -/
  | invalidLength
  /-- `"Invalid chunk length: chunk type"` -/
  | invalidLengthType
  /-- `"Contains non-ASCII chars"` (from `ChunkType::try_from`) -/
  | nonAscii
  /-- `"Invalid chunk length: chunk data"` -/
  | invalidLengthData
  /-- `"Invalid chunk CRC: read: {r}, calculated: {c}"` -/
  | crcMismatch (read calculated : Nat)
deriving DecidableEq, Repr

instance {ε α : Type} [DecidableEq ε] [DecidableEq α] : DecidableEq (Except ε α) := fun x y =>
  match x, y with
  | .error e, .error f =>
    if h : e = f then .isTrue (by rw [h]) else .isFalse (by simp [h])
  | .ok a, .ok b =>
    if h : a = b then .isTrue (by rw [h]) else .isFalse (by simp [h])
  | .error _, .ok _ => .isFalse (by simp)
  | .ok _, .error _ => .isFalse (by simp)

/-- `ChunkType(u8, u8, u8, u8)` from `chunk_type.rs`. -/
structure ChunkType where
  b0 : Nat
  b1 : Nat
  b2 : Nat
  b3 : Nat
deriving DecidableEq, Repr

/-- `impl TryFrom<[u8; 4]> for ChunkType`: every byte must be an ASCII
letter, else `"Contains non-ASCII chars"`. -/
def ChunkType.tryFrom (b0 b1 b2 b3 : Nat) : Except Err ChunkType :=
  if ([b0, b1, b2, b3].all isAsciiAlphabetic) then .ok ⟨b0, b1, b2, b3⟩
  else .error .nonAscii

/-- `ChunkType::bytes`. -/
def ChunkType.bytes (t : ChunkType) : List Nat := [t.b0, t.b1, t.b2, t.b3]

/-- `ChunkType::is_critical`. -/
def ChunkType.isCritical (t : ChunkType) : Bool := isAsciiUppercase t.b0

/-- `ChunkType::is_public`. -/
def ChunkType.isPublic (t : ChunkType) : Bool := isAsciiUppercase t.b1

/-- `ChunkType::is_reserved_bit_valid`. -/
def ChunkType.isReservedBitValid (t : ChunkType) : Bool := isAsciiUppercase t.b2

/-- `ChunkType::is_safe_to_copy` — note the source tests
`is_ascii_lowercase` on byte 3. -/
def ChunkType.isSafeToCopy (t : ChunkType) : Bool := isAsciiLowercase t.b3

/-- `ChunkType::is_valid`. -/
def ChunkType.isValid (t : ChunkType) : Bool := t.isReservedBitValid

/-- One bit of the CRC-32 table computation: the body of the inner fold
in `crc32` of `chunk.rs` (`match c & 1 { 1 => c >> 1 ^ 0xedb88320, _ => c >> 1 }`). -/
def crcStep (c : Nat) : Nat :=
  if c &&& 1 = 1 then (c >>> 1) ^^^ 0xedb88320 else c >>> 1

/-- Entry `i` of the 256-entry CRC table (`std::array::from_fn`): eight
`crcStep` iterations starting from `i`. -/
def crcEntry (i : Nat) : Nat := crcStep^[8] i

/-- The body of the byte fold in `crc32`:
`c >> 8 ^ table[((c ^ octet) & 0xff) as usize]`. -/
def crcUpd (c octet : Nat) : Nat := (c >>> 8) ^^^ crcEntry ((c ^^^ octet) &&& 0xff)

/-- `crc32` from `chunk.rs`: fold `crcUpd` over the type bytes followed
by the data bytes, starting from `u32::MAX`, and complement the result. -/
def crc32 (ty data : List Nat) : Nat :=
  ((ty ++ data).foldl crcUpd 0xffffffff) ^^^ 0xffffffff

/-- `u32::from_be_bytes`. -/
def u32ofBe (b0 b1 b2 b3 : Nat) : Nat := ((b0 * 256 + b1) * 256 + b2) * 256 + b3

/-- `u32::to_be_bytes` (of a value `< 2 ^ 32`). -/
def u32beBytes (n : Nat) : List Nat :=
  [n / 2 ^ 24 % 256, n / 2 ^ 16 % 256, n / 2 ^ 8 % 256, n % 256]

/-- Read a big-endian `u32` out of the 4 bytes of `v` starting at `i`. -/
def readBe (v : List Nat) (i : Nat) : Nat :=
  u32ofBe (v.getD i 0) (v.getD (i + 1) 0) (v.getD (i + 2) 0) (v.getD (i + 3) 0)

/-- The `Chunk` struct of `chunk.rs`. -/
structure Chunk where
  length : Nat
  ty : ChunkType
  data : List Nat
  crc : Nat
deriving DecidableEq, Repr

/-- `Chunk::new`: `length = data.len() as u32`, crc over type bytes then
data. -/
def Chunk.new (ty : ChunkType) (data : List Nat) : Chunk :=
  { length := data.length % 2 ^ 32
    ty := ty
    data := data
    crc := crc32 ty.bytes data }

/-- `Chunk::bytes`: big-endian length, type bytes, data, big-endian crc. -/
def Chunk.bytes (c : Chunk) : List Nat :=
  u32beBytes c.length ++ c.ty.bytes ++ c.data ++ u32beBytes c.crc

/-- `impl TryFrom<&[u8]> for Chunk`, step by step:
`value.get(..4)` fails iff the buffer is shorter than 4;
the length check is `length > 2u32.pow(31) || length != value.len() as u32 - 12`
(wrapping cast and subtraction, modelled as `(len + (2^32 - 12)) % 2^32`);
`value.get(4..8)` fails iff the buffer is shorter than 8;
the type bytes go through `ChunkType::try_from`, whose error propagates;
`value.get(8..crc_offset)` with `crc_offset = len - 4` fails iff
`crc_offset < 8`; the final 4-byte crc read `value.get(crc_offset..)`
always succeeds at this point (`len ≥ 12`); then the computed CRC is
compared with the stored one. -/
def Chunk.tryFrom (v : List Nat) : Except Err Chunk :=
  if v.length < 4 then .error .invalidLength
  else
    let length := readBe v 0
    if length > 2 ^ 31 ∨ length ≠ (v.length + (2 ^ 32 - 12)) % 2 ^ 32 then
      .error .invalidLength
    else if v.length < 8 then .error .invalidLengthType
    else
      match ChunkType.tryFrom (v.getD 4 0) (v.getD 5 0) (v.getD 6 0) (v.getD 7 0) with
      | .error e => .error e
      | .ok ty =>
        let crcOffset := v.length - 4
        if crcOffset < 8 then .error .invalidLengthData
        else
          let data := (v.drop 8).take (crcOffset - 8)
          let crc := readBe v crcOffset
          let calculated := crc32 [v.getD 4 0, v.getD 5 0, v.getD 6 0, v.getD 7 0] data
          if crc ≠ calculated then .error (.crcMismatch crc calculated)
          else .ok { length := length, ty := ty, data := data, crc := crc }

/-- Modelled from the spec: the reference bit-at-a-time CRC-32/IEEE
(reflected) algorithm — polynomial `0xEDB88320`, initial register
`0xFFFFFFFF`, final XOR `0xFFFFFFFF`; each byte is XORed into the
register, which then undergoes eight conditional shift-and-XOR rounds. -/
def crc32Spec (msg : List Nat) : Nat :=
  (msg.foldl (fun c b => crcStep^[8] (c ^^^ b)) 0xffffffff) ^^^ 0xffffffff

/-- `"The "` as bytes. -/
def theBytes : List Nat := [84, 104, 101, 32]

/-- `"quick brown fox jumps over the lazy dog"` as bytes. -/
def dogBytes : List Nat :=
  [113, 117, 105, 99, 107, 32, 98, 114, 111, 119, 110, 32, 102, 111, 120,
   32, 106, 117, 109, 112, 115, 32, 111, 118, 101, 114, 32, 116, 104, 101,
   32, 108, 97, 122, 121, 32, 100, 111, 103]

/-- `"RuSt"` as a `ChunkType`. -/
def rust : ChunkType := ⟨82, 117, 83, 116⟩

/-- The serialized form of the chunk with type `"RuSt"` and empty
payload: length 0, type bytes, no data, and the big-endian bytes of
`crc32 [82,117,83,116] [] = 3565422908 = 0xd484093c`. -/
def rustEmptyBuf : List Nat := [0, 0, 0, 0, 82, 117, 83, 116, 212, 132, 9, 60]

/-! ## Equivalence of the table-driven CRC with the bit-at-a-time CRC -/

/-- `>>>` distributes over `^^^` on `Nat`. -/
theorem xor_shiftRight_distrib (a b n : Nat) :
    (a ^^^ b) >>> n = (a >>> n) ^^^ (b >>> n) :=
  Nat.eq_of_testBit_eq fun i => by simp

/-- `crcStep` of an XOR with an even value peels the even part off. -/
theorem crcStep_xor_even (a b : Nat) (hb : b &&& 1 = 0) :
    crcStep (a ^^^ b) = crcStep a ^^^ (b >>> 1) := by
  unfold crcStep
  have h1 : (a ^^^ b) &&& 1 = a &&& 1 := by
    rw [Nat.and_xor_distrib_right, hb, Nat.xor_zero]
  rw [h1, xor_shiftRight_distrib]
  by_cases h : a &&& 1 = 1
  · rw [if_pos h, if_pos h, Nat.xor_assoc, Nat.xor_comm (b >>> 1), ← Nat.xor_assoc]
  · rw [if_neg h, if_neg h]

/-- Iterating `crcStep` `k` times over a value whose low part is `r` and
whose high part is `q <<< k` shifts the high part down unchanged. -/
theorem crcStep_iterate_shiftLeft (k : Nat) : ∀ q r : Nat,
    crcStep^[k] ((q <<< k) ^^^ r) = q ^^^ crcStep^[k] r := by
  induction k with
  | zero => intro q r; simp
  | succ k ih =>
    intro q r
    rw [Function.iterate_succ_apply, Function.iterate_succ_apply]
    have heven : (q <<< (k + 1)) &&& 1 = 0 := by
      rw [Nat.and_one_is_mod, Nat.shiftLeft_eq, pow_succ, ← mul_assoc, Nat.mul_mod_left]
    have hshift : (q <<< (k + 1)) >>> 1 = q <<< k := by
      rw [Nat.shiftLeft_eq, Nat.shiftLeft_eq, Nat.shiftRight_eq_div_pow, pow_succ,
        ← mul_assoc, pow_one, Nat.mul_div_cancel _ (by omega)]
    rw [Nat.xor_comm (q <<< (k + 1)) r, crcStep_xor_even r _ heven, hshift,
      Nat.xor_comm (crcStep r) (q <<< k), ih q (crcStep r)]

/-- Any `Nat` splits into its high bits shifted left and its low 8 bits,
joined by XOR. -/
theorem high_xor_low (x : Nat) : ((x >>> 8) <<< 8) ^^^ (x &&& 255) = x := by
  rw [(by norm_num : (255 : Nat) = 2 ^ 8 - 1), Nat.and_pow_two_sub_one_eq_mod]
  apply Nat.eq_of_testBit_eq
  intro i
  rw [Nat.testBit_xor, Nat.testBit_shiftLeft, Nat.testBit_mod_two_pow]
  rcases lt_or_ge i 8 with h | h
  · have h8 : decide (8 ≤ i) = false := by simp [Nat.not_le.mpr h]
    have hi : decide (i < 8) = true := by simp [h]
    rw [h8, hi, Bool.false_and, Bool.true_and, Bool.false_xor]
  · have h8 : decide (8 ≤ i) = true := by simp [h]
    have hi : decide (i < 8) = false := by simp [Nat.not_lt.mpr h]
    rw [h8, hi, Bool.false_and, Bool.true_and, Bool.xor_false, Nat.testBit_shiftRight,
      Nat.add_sub_cancel' h]

/-- Eight `crcStep`s over `x` equal shifting the high 24 bits of `x`
down and folding in the table entry of the low byte of `x`. -/
theorem crcStep8_split (x : Nat) :
    crcStep^[8] x = (x >>> 8) ^^^ crcEntry (x &&& 255) := by
  conv_lhs => rw [← high_xor_low x]
  rw [crcStep_iterate_shiftLeft 8 (x >>> 8) (x &&& 255)]
  rfl

/-- The table-driven byte update of `crc32` agrees with the reference
bit-at-a-time byte update whenever the octet is an actual byte. -/
theorem crcUpd_eq_spec (c b : Nat) (hb : b < 256) :
    crcUpd c b = crcStep^[8] (c ^^^ b) := by
  rw [crcStep8_split (c ^^^ b)]
  unfold crcUpd
  congr 1
  rw [xor_shiftRight_distrib]
  have hb8 : b >>> 8 = 0 := by
    rw [Nat.shiftRight_eq_div_pow]
    omega
  rw [hb8, Nat.xor_zero]

theorem foldl_crcUpd_eq_spec (l : List Nat) (hl : ∀ b ∈ l, b < 256) : ∀ c : Nat,
    l.foldl crcUpd c = l.foldl (fun c b => crcStep^[8] (c ^^^ b)) c := by
  induction l with
  | nil => intro c; rfl
  | cons a t ih =>
    intro c
    simp only [List.foldl_cons]
    rw [crcUpd_eq_spec c a (hl a (by simp))]
    exact ih (fun b hb => hl b (by simp [hb])) _

/-- Refinement: the implementation CRC equals the reference CRC over the
concatenated message. -/
theorem crc32_eq_crc32Spec (ty data : List Nat) (h : ∀ b ∈ ty ++ data, b < 256) :
    crc32 ty data = crc32Spec (ty ++ data) := by
  unfold crc32 crc32Spec
  rw [foldl_crcUpd_eq_spec _ h]

/-- C1: the table-driven `crc32` computes exactly the reference
CRC-32/IEEE reflected checksum (polynomial `0xEDB88320`, initial
register `0xFFFFFFFF`, final XOR `0xFFFFFFFF`) of the type-code bytes
followed by the payload bytes; in particular on type `"The "` and
payload `"quick brown fox jumps over the lazy dog"` it returns
`0x414fa339`. -/
theorem crc32_refines_reference :
    (∀ ty data : List Nat, IsBytes ty → IsBytes data →
      crc32 ty data = crc32Spec (ty ++ data))
    ∧ crc32 theBytes dogBytes = 0x414fa339 := by
  constructor
  · intro ty data hty hdata
    apply crc32_eq_crc32Spec
    intro b hb
    rcases List.mem_append.mp hb with h | h
    · exact hty b h
    · exact hdata b h
  · decide

/-- Witness for C1 at the concrete reference vector. -/
theorem crc32_refines_reference_witness :
    IsBytes theBytes ∧ IsBytes dogBytes ∧
      crc32 theBytes dogBytes = crc32Spec (theBytes ++ dogBytes) :=
  ⟨by decide, by decide, crc32_refines_reference.1 theBytes dogBytes (by decide) (by decide)⟩

/-! ## Type-code property bits -/

/-- C7 counterexample: the constructed type `"RuSt"` has
`is_safe_to_copy() = true` although byte 3 (`t` = 116) is not an ASCII
uppercase letter — the source tests `is_ascii_lowercase` on byte 3, so
the four predicates are not uniformly "true iff uppercase". -/
theorem isSafeToCopy_not_uppercase :
    ChunkType.tryFrom 82 117 83 116 = .ok rust
    ∧ rust.isSafeToCopy = true
    ∧ isAsciiUppercase 116 = false := by decide

/-- C7 amended: for every constructed `ChunkType`, `is_critical`,
`is_public` and `is_reserved_bit_valid` hold iff bytes 0, 1, 2
respectively are ASCII uppercase, while `is_safe_to_copy` holds iff
byte 3 is ASCII lowercase. -/
theorem chunkType_property_bits (b0 b1 b2 b3 : Nat) (t : ChunkType)
    (h : ChunkType.tryFrom b0 b1 b2 b3 = .ok t) :
    (t.isCritical = true ↔ isAsciiUppercase b0 = true)
    ∧ (t.isPublic = true ↔ isAsciiUppercase b1 = true)
    ∧ (t.isReservedBitValid = true ↔ isAsciiUppercase b2 = true)
    ∧ (t.isSafeToCopy = true ↔ isAsciiLowercase b3 = true) := by
  by_cases hc : ([b0, b1, b2, b3].all isAsciiAlphabetic)
  · rw [ChunkType.tryFrom, if_pos hc] at h
    injection h with h'
    subst h'
    exact ⟨Iff.rfl, Iff.rfl, Iff.rfl, Iff.rfl⟩
  · rw [ChunkType.tryFrom, if_neg hc] at h
    exact absurd h (by simp)

/-- Witness for the amended C7 at the concrete type `"RuSt"`. -/
theorem chunkType_property_bits_witness :
    (rust.isCritical = true ↔ isAsciiUppercase 82 = true)
    ∧ (rust.isPublic = true ↔ isAsciiUppercase 117 = true)
    ∧ (rust.isReservedBitValid = true ↔ isAsciiUppercase 83 = true)
    ∧ (rust.isSafeToCopy = true ↔ isAsciiLowercase 116 = true) :=
  chunkType_property_bits 82 117 83 116 rust (by decide)

/-- C8: the concrete type-property vectors — `"RuSt"` is critical, not
public, reserved-bit-valid and safe to copy; `"Rust"` is not
reserved-bit-valid hence not valid; `"Ru1t"` fails to construct with the
invalid-encoding error (`"Contains non-ASCII chars"`). -/
theorem type_property_vectors :
    ChunkType.tryFrom 82 117 83 116 = .ok rust
    ∧ rust.isCritical = true
    ∧ rust.isPublic = false
    ∧ rust.isReservedBitValid = true
    ∧ rust.isSafeToCopy = true
    ∧ ChunkType.tryFrom 82 117 115 116 = .ok ⟨82, 117, 115, 116⟩
    ∧ ChunkType.isReservedBitValid ⟨82, 117, 115, 116⟩ = false
    ∧ ChunkType.isValid ⟨82, 117, 115, 116⟩ = false
    ∧ ChunkType.tryFrom 82 117 49 116 = .error .nonAscii := by decide

/-! ## Length guards of `Chunk::try_from` -/

/-- Any buffer of at least 4 bytes whose declared length exceeds `2 ^ 31`
trips the first disjunct of the length guard. -/
theorem tryFrom_error_of_big_declared (v : List Nat)
    (h4 : 4 ≤ v.length) (h : readBe v 0 > 2 ^ 31) :
    Chunk.tryFrom v = .error .invalidLength := by
  simp only [Chunk.tryFrom]
  rw [if_neg (by omega), if_pos (Or.inl h)]

/-- C6 amended: every buffer whose first four bytes read as a big-endian
`u32` exceed `2 ^ 31` is rejected with the invalid-length error (the
source guard is `length > 2u32.pow(31)`, so a declared length of exactly
`2 ^ 31` passes the guard). -/
theorem tryFrom_declared_gt (v : List Nat)
    (h4 : 4 ≤ v.length) (h : readBe v 0 > 2 ^ 31) :
    Chunk.tryFrom v = .error .invalidLength :=
  tryFrom_error_of_big_declared v h4 h

/-- Witness for the amended C6. -/
theorem tryFrom_declared_gt_witness :
    4 ≤ ([255, 255, 255, 255] : List Nat).length
    ∧ readBe [255, 255, 255, 255] 0 > 2 ^ 31
    ∧ Chunk.tryFrom [255, 255, 255, 255] = .error .invalidLength :=
  ⟨by decide, by decide, tryFrom_declared_gt [255, 255, 255, 255] (by decide) (by decide)⟩

/-- C9: truncation safety — a buffer shorter than 12 bytes, or shorter
than 12 plus its declared big-endian length, is rejected with the
length-related error `"Invalid chunk length"` (the embedding is a total
function: no out-of-bounds access, and in release semantics the wrapping
`value.len() as u32 - 12` never panics). -/
theorem tryFrom_truncated (v : List Nat)
    (h : v.length < 12 ∨ v.length < 12 + readBe v 0) :
    Chunk.tryFrom v = .error .invalidLength := by
  simp only [Chunk.tryFrom]
  by_cases h4 : v.length < 4
  · rw [if_pos h4]
  · rw [if_neg h4, if_pos (by omega)]

/-- Witness for C9: a 4-byte buffer and a 12-byte buffer with declared
length 5. -/
theorem tryFrom_truncated_witness :
    (([0, 0, 0, 5] : List Nat).length < 12
      ∧ Chunk.tryFrom [0, 0, 0, 5] = .error .invalidLength)
    ∧ (([0, 0, 0, 5, 82, 117, 83, 116, 0, 0, 0, 0] : List Nat).length
        < 12 + readBe [0, 0, 0, 5, 82, 117, 83, 116, 0, 0, 0, 0] 0
      ∧ Chunk.tryFrom [0, 0, 0, 5, 82, 117, 83, 116, 0, 0, 0, 0] = .error .invalidLength) :=
  ⟨⟨by decide, tryFrom_truncated _ (Or.inl (by decide))⟩,
   ⟨by decide, tryFrom_truncated _ (Or.inr (by decide))⟩⟩

/-- Inversion of a successful `Chunk::try_from`: the structural facts
established by each passed guard, and the content of the resulting
chunk. -/
theorem tryFrom_ok_inversion (v : List Nat) (c : Chunk)
    (h : Chunk.tryFrom v = .ok c) :
    12 ≤ v.length
    ∧ readBe v 0 ≤ 2 ^ 31
    ∧ readBe v 0 = (v.length + (2 ^ 32 - 12)) % 2 ^ 32
    ∧ [v.getD 4 0, v.getD 5 0, v.getD 6 0, v.getD 7 0].all isAsciiAlphabetic = true
    ∧ c.length = readBe v 0
    ∧ c.ty = ⟨v.getD 4 0, v.getD 5 0, v.getD 6 0, v.getD 7 0⟩
    ∧ c.data = (v.drop 8).take (v.length - 12)
    ∧ c.crc = readBe v (v.length - 4)
    ∧ c.crc = crc32 [v.getD 4 0, v.getD 5 0, v.getD 6 0, v.getD 7 0] c.data := by
  simp only [Chunk.tryFrom] at h
  by_cases h4 : v.length < 4
  · rw [if_pos h4] at h
    exact absurd h (by simp)
  rw [if_neg h4] at h
  by_cases hL : readBe v 0 > 2 ^ 31 ∨ readBe v 0 ≠ (v.length + (2 ^ 32 - 12)) % 2 ^ 32
  · rw [if_pos hL] at h
    exact absurd h (by simp)
  rw [if_neg hL] at h
  push_neg at hL
  by_cases h8 : v.length < 8
  · rw [if_pos h8] at h
    exact absurd h (by simp)
  rw [if_neg h8] at h
  by_cases hT : ([v.getD 4 0, v.getD 5 0, v.getD 6 0, v.getD 7 0].all isAsciiAlphabetic)
  · rw [ChunkType.tryFrom, if_pos hT] at h
    simp only [] at h
    by_cases hco : v.length - 4 < 8
    · rw [if_pos hco] at h
      exact absurd h (by simp)
    rw [if_neg hco] at h
    by_cases hcrc : readBe v (v.length - 4)
        ≠ crc32 [v.getD 4 0, v.getD 5 0, v.getD 6 0, v.getD 7 0]
          ((v.drop 8).take (v.length - 4 - 8))
    · rw [if_pos hcrc] at h
      exact absurd h (by simp)
    rw [if_neg hcrc] at h
    push_neg at hcrc
    injection h with h'
    subst h'
    have h12 : v.length - 4 - 8 = v.length - 12 := by omega
    rw [h12] at hcrc
    exact ⟨by omega, hL.1, hL.2, hT, rfl, rfl, by rw [h12], rfl, by rw [h12, hcrc]⟩
  · rw [ChunkType.tryFrom, if_neg hT] at h
    simp only [] at h
    exact absurd h (by simp)

/-- C10 counterexample helper is given later; this is the amended C10:
`Chunk::try_from` accepts a buffer only when the declared length is at
most `2 ^ 31` and the total buffer length is congruent to 12 plus the
declared length modulo `2 ^ 32` (the comparison casts `value.len()` to
`u32`); conversely every buffer (of at least 4 bytes) whose total length
is not congruent to 12 plus the declared length modulo `2 ^ 32` is
rejected with the invalid-length error. -/
theorem tryFrom_length_mod (v : List Nat) :
    (∀ c, Chunk.tryFrom v = .ok c →
      readBe v 0 ≤ 2 ^ 31 ∧ v.length % 2 ^ 32 = (12 + readBe v 0) % 2 ^ 32)
    ∧ (4 ≤ v.length → v.length % 2 ^ 32 ≠ (12 + readBe v 0) % 2 ^ 32 →
      Chunk.tryFrom v = .error .invalidLength) := by
  constructor
  · intro c h
    obtain ⟨h12, hle, heq, -⟩ := tryFrom_ok_inversion v c h
    exact ⟨hle, by omega⟩
  · intro h4 hne
    simp only [Chunk.tryFrom]
    rw [if_neg (by omega), if_pos (by omega)]

/-- Witness for the amended C10: a valid 12-byte empty-payload chunk for
the acceptance direction, and a 13-byte buffer declaring length 0 for
the rejection direction. -/
theorem tryFrom_length_mod_witness :
    (readBe rustEmptyBuf 0 ≤ 2 ^ 31
      ∧ rustEmptyBuf.length % 2 ^ 32 = (12 + readBe rustEmptyBuf 0) % 2 ^ 32)
    ∧ Chunk.tryFrom (rustEmptyBuf ++ [0]) = .error .invalidLength :=
  ⟨(tryFrom_length_mod rustEmptyBuf).1 ⟨0, rust, [], 3565422908⟩ (by decide),
   (tryFrom_length_mod (rustEmptyBuf ++ [0])).2 (by decide) (by decide)⟩

/-! ## Bounds and big-endian helpers -/

theorem crcStep_lt (c : Nat) (h : c < 2 ^ 32) : crcStep c < 2 ^ 32 := by
  unfold crcStep
  have h1 : c >>> 1 < 2 ^ 31 := by
    rw [Nat.shiftRight_eq_div_pow]
    omega
  split
  · exact Nat.xor_lt_two_pow (by omega) (by norm_num)
  · omega

theorem crcStep_iterate_lt (k : Nat) : ∀ c : Nat, c < 2 ^ 32 → crcStep^[k] c < 2 ^ 32 := by
  induction k with
  | zero => intro c h; exact h
  | succ k ih =>
    intro c h
    rw [Function.iterate_succ_apply]
    exact ih _ (crcStep_lt c h)

theorem crcUpd_lt (c b : Nat) (h : c < 2 ^ 32) : crcUpd c b < 2 ^ 32 := by
  unfold crcUpd
  apply Nat.xor_lt_two_pow
  · rw [Nat.shiftRight_eq_div_pow]
    omega
  · apply crcStep_iterate_lt
    have hlt : (c ^^^ b) &&& 255 < 2 ^ 8 := Nat.and_lt_two_pow _ (by norm_num)
    omega

theorem foldl_crcUpd_lt (l : List Nat) : ∀ c : Nat, c < 2 ^ 32 → l.foldl crcUpd c < 2 ^ 32 := by
  induction l with
  | nil => intro c h; exact h
  | cons a t ih =>
    intro c h
    exact ih _ (crcUpd_lt c a h)

/-- `crc32` is a `u32` value. -/
theorem crc32_lt_two_pow (ty data : List Nat) : crc32 ty data < 2 ^ 32 := by
  unfold crc32
  exact Nat.xor_lt_two_pow (foldl_crcUpd_lt _ _ (by norm_num)) (by norm_num)

theorem getD_append_left (l l' : List Nat) (i : Nat) (h : i < l.length) :
    (l ++ l').getD i 0 = l.getD i 0 := by
  simp [List.getD_eq_getElem?_getD, List.getElem?_append_left h]

theorem getD_append_right (l l' : List Nat) (i : Nat) (h : l.length ≤ i) :
    (l ++ l').getD i 0 = l'.getD (i - l.length) 0 := by
  simp [List.getD_eq_getElem?_getD, List.getElem?_append_right h]

theorem readBe_append (p s : List Nat) (i : Nat) (h : p.length ≤ i) :
    readBe (p ++ s) i = readBe s (i - p.length) := by
  unfold readBe
  rw [getD_append_right _ _ _ (by omega), getD_append_right _ _ _ (by omega),
    getD_append_right _ _ _ (by omega), getD_append_right _ _ _ (by omega)]
  have h1 : i + 1 - p.length = i - p.length + 1 := by omega
  have h2 : i + 2 - p.length = i - p.length + 2 := by omega
  have h3 : i + 3 - p.length = i - p.length + 3 := by omega
  rw [h1, h2, h3]

/-- Reading back the big-endian bytes of a `u32` value recovers it. -/
theorem u32ofBe_u32beBytes (n : Nat) (h : n < 2 ^ 32) :
    u32ofBe (n / 2 ^ 24 % 256) (n / 2 ^ 16 % 256) (n / 2 ^ 8 % 256) (n % 256) = n := by
  unfold u32ofBe
  omega

theorem readBe_quad (b0 b1 b2 b3 : Nat) : readBe [b0, b1, b2, b3] 0 = u32ofBe b0 b1 b2 b3 := rfl

/-- Reading back the serialized big-endian bytes of a `u32` recovers it. -/
theorem readBe_u32beBytes (n : Nat) (h : n < 2 ^ 32) : readBe (u32beBytes n) 0 = n := by
  unfold readBe u32beBytes
  show u32ofBe (n / 2 ^ 24 % 256) (n / 2 ^ 16 % 256) (n / 2 ^ 8 % 256) (n % 256) = n
  exact u32ofBe_u32beBytes n h

theorem readBe_u32beBytes_append (n : Nat) (rest : List Nat) (h : n < 2 ^ 32) :
    readBe (u32beBytes n ++ rest) 0 = n := by
  unfold readBe
  rw [getD_append_left _ _ _ (by simp [u32beBytes]),
    getD_append_left _ _ _ (by simp [u32beBytes]),
    getD_append_left _ _ _ (by simp [u32beBytes]),
    getD_append_left _ _ _ (by simp [u32beBytes])]
  exact readBe_u32beBytes n h

/-! ## Chunk invariants (C5) -/

/-- C5 counterexample: `Chunk::new` performs no length validation — a
payload of `2 ^ 31` zero bytes yields a chunk whose length field is
`2 ^ 31`, exceeding `2 ^ 31 - 1`. -/
theorem chunk_new_length_unbounded :
    ¬ (Chunk.new rust (List.replicate (2 ^ 31) 0)).length ≤ 2 ^ 31 - 1 := by
  intro hle
  have h : (Chunk.new rust (List.replicate (2 ^ 31) 0)).length = 2 ^ 31 % 2 ^ 32 := by
    simp only [Chunk.new, List.length_replicate]
  rw [h] at hle
  omega

/-- C5 amended: `Chunk::new` sets `length` to the payload length reduced
mod `2 ^ 32` (equal to the payload length whenever it is `< 2 ^ 32`, and
unbounded otherwise — no `≤ 2 ^ 31 - 1` validation) and `crc` to the
CRC-32 of the type bytes followed by the payload; every chunk accepted
by `Chunk::try_from` has `length` equal to its data length mod `2 ^ 32`,
`length ≤ 2 ^ 31`, and `crc` equal to the CRC-32 of its type bytes
followed by its data. -/
theorem chunk_invariants :
    (∀ (t : ChunkType) (d : List Nat), d.length < 2 ^ 32 →
      (Chunk.new t d).length = d.length ∧ (Chunk.new t d).crc = crc32 t.bytes d)
    ∧ (∀ (v : List Nat) (c : Chunk), Chunk.tryFrom v = .ok c →
      c.length = c.data.length % 2 ^ 32 ∧ c.length ≤ 2 ^ 31
      ∧ c.crc = crc32 c.ty.bytes c.data) := by
  constructor
  · intro t d hd
    exact ⟨Nat.mod_eq_of_lt hd, rfl⟩
  · intro v c h
    obtain ⟨h12, hle, heq, hall, hlen, hty, hdata, hcrcr, hcrc⟩ := tryFrom_ok_inversion v c h
    refine ⟨?_, by rw [hlen]; exact hle, ?_⟩
    · rw [hlen, heq, hdata, List.length_take, List.length_drop]
      have hmin : min (v.length - 12) (v.length - 8) = v.length - 12 := by omega
      rw [hmin]
      omega
    · rw [hcrc, hty]
      rfl

/-- Witness for the amended C5: `Chunk::new` on a 3-byte payload and
`Chunk::try_from` on the serialized empty `"RuSt"` chunk. -/
theorem chunk_invariants_witness :
    ((Chunk.new rust [1, 2, 3]).length = 3
      ∧ (Chunk.new rust [1, 2, 3]).crc = crc32 rust.bytes [1, 2, 3])
    ∧ ((⟨0, rust, [], 3565422908⟩ : Chunk).length
        = (⟨0, rust, [], 3565422908⟩ : Chunk).data.length % 2 ^ 32
      ∧ (⟨0, rust, [], 3565422908⟩ : Chunk).length ≤ 2 ^ 31
      ∧ (⟨0, rust, [], 3565422908⟩ : Chunk).crc
        = crc32 (⟨0, rust, [], 3565422908⟩ : Chunk).ty.bytes
            (⟨0, rust, [], 3565422908⟩ : Chunk).data) :=
  ⟨chunk_invariants.1 rust [1, 2, 3] (by norm_num),
   chunk_invariants.2 rustEmptyBuf ⟨0, rust, [], 3565422908⟩ (by decide)⟩

/-! ## Encode/decode round-trip (C2) -/

/-- C2 counterexample: for a payload of `2 ^ 31 + 1` bytes — a byte
payload the claim quantifies over — decoding the serialized chunk fails
with the invalid-length error instead of reproducing the chunk. -/
theorem roundtrip_fails_on_huge_payload :
    Chunk.tryFrom (Chunk.bytes (Chunk.new rust (List.replicate (2 ^ 31 + 1) 0)))
      = .error .invalidLength := by
  have hmod : (2 ^ 31 + 1) % 2 ^ 32 = 2 ^ 31 + 1 := by norm_num
  have hb : Chunk.bytes (Chunk.new rust (List.replicate (2 ^ 31 + 1) 0))
      = u32beBytes (2 ^ 31 + 1) ++ (ChunkType.bytes rust
          ++ (List.replicate (2 ^ 31 + 1) 0
            ++ u32beBytes (crc32 rust.bytes (List.replicate (2 ^ 31 + 1) 0)))) := by
    simp only [Chunk.bytes, Chunk.new, List.length_replicate, hmod, List.append_assoc]
  apply tryFrom_error_of_big_declared
  · rw [hb, List.length_append]
    have h : (u32beBytes (2 ^ 31 + 1)).length = 4 := rfl
    omega
  · rw [hb, readBe_u32beBytes_append _ _ (by norm_num)]
    norm_num

/-- C2 amended: for every ASCII-letter type code and every payload of at
most `2 ^ 31` bytes, decoding the serialized encoded chunk succeeds and
returns a chunk with the same length, type, data and crc (a payload of
`2 ^ 31 + 1` bytes, by contrast, serializes to a buffer the decoder
rejects with the invalid-length error — see the counterexample). -/
theorem encode_decode_roundtrip (t0 t1 t2 t3 : Nat) (d : List Nat)
    (ht : [t0, t1, t2, t3].all isAsciiAlphabetic = true)
    (hlen : d.length ≤ 2 ^ 31) :
    Chunk.tryFrom (Chunk.bytes (Chunk.new ⟨t0, t1, t2, t3⟩ d))
      = .ok (Chunk.new ⟨t0, t1, t2, t3⟩ d) := by
  have hmod : d.length % 2 ^ 32 = d.length := Nat.mod_eq_of_lt (by omega)
  have hClt : crc32 [t0, t1, t2, t3] d < 2 ^ 32 := crc32_lt_two_pow _ _
  have hb : Chunk.bytes (Chunk.new ⟨t0, t1, t2, t3⟩ d)
      = u32beBytes d.length ++ ([t0, t1, t2, t3]
          ++ (d ++ u32beBytes (crc32 [t0, t1, t2, t3] d))) := by
    simp only [Chunk.bytes, Chunk.new, ChunkType.bytes, hmod, List.append_assoc]
  have hBlen : (Chunk.bytes (Chunk.new ⟨t0, t1, t2, t3⟩ d)).length = 12 + d.length := by
    rw [hb]
    simp only [List.length_append, u32beBytes, List.length_cons, List.length_nil]
    omega
  have hg4 : (Chunk.bytes (Chunk.new ⟨t0, t1, t2, t3⟩ d)).getD 4 0 = t0 := by
    rw [hb, getD_append_right _ _ _ (by simp [u32beBytes])]
    rfl
  have hg5 : (Chunk.bytes (Chunk.new ⟨t0, t1, t2, t3⟩ d)).getD 5 0 = t1 := by
    rw [hb, getD_append_right _ _ _ (by simp [u32beBytes])]
    rfl
  have hg6 : (Chunk.bytes (Chunk.new ⟨t0, t1, t2, t3⟩ d)).getD 6 0 = t2 := by
    rw [hb, getD_append_right _ _ _ (by simp [u32beBytes])]
    rfl
  have hg7 : (Chunk.bytes (Chunk.new ⟨t0, t1, t2, t3⟩ d)).getD 7 0 = t3 := by
    rw [hb, getD_append_right _ _ _ (by simp [u32beBytes])]
    rfl
  have hread0 : readBe (Chunk.bytes (Chunk.new ⟨t0, t1, t2, t3⟩ d)) 0 = d.length := by
    rw [hb]
    exact readBe_u32beBytes_append _ _ (by omega)
  have hdrop8 : (Chunk.bytes (Chunk.new ⟨t0, t1, t2, t3⟩ d)).drop 8
      = d ++ u32beBytes (crc32 [t0, t1, t2, t3] d) := by
    rw [hb, ← List.append_assoc]
    exact List.drop_left' (by simp [u32beBytes])
  have hdata : ((Chunk.bytes (Chunk.new ⟨t0, t1, t2, t3⟩ d)).drop 8).take
      ((Chunk.bytes (Chunk.new ⟨t0, t1, t2, t3⟩ d)).length - 4 - 8) = d := by
    have hidx : (Chunk.bytes (Chunk.new ⟨t0, t1, t2, t3⟩ d)).length - 4 - 8 = d.length := by
      omega
    rw [hidx, hdrop8]
    exact List.take_left' rfl
  have hcrcread : readBe (Chunk.bytes (Chunk.new ⟨t0, t1, t2, t3⟩ d))
      ((Chunk.bytes (Chunk.new ⟨t0, t1, t2, t3⟩ d)).length - 4)
      = crc32 [t0, t1, t2, t3] d := by
    have hidx : (Chunk.bytes (Chunk.new ⟨t0, t1, t2, t3⟩ d)).length - 4 = 8 + d.length := by
      omega
    rw [hidx, hb, ← List.append_assoc,
      readBe_append _ _ _ (by simp [u32beBytes])]
    have hidx2 : 8 + d.length - (u32beBytes d.length ++ [t0, t1, t2, t3]).length = d.length := by
      simp [u32beBytes]
    rw [hidx2, readBe_append d _ _ (le_refl _), Nat.sub_self]
    exact readBe_u32beBytes _ hClt
  simp only [Chunk.tryFrom]
  have h4 : ¬ (Chunk.bytes (Chunk.new ⟨t0, t1, t2, t3⟩ d)).length < 4 := by omega
  rw [if_neg h4]
  have hcond : ¬ (readBe (Chunk.bytes (Chunk.new ⟨t0, t1, t2, t3⟩ d)) 0 > 2 ^ 31
      ∨ readBe (Chunk.bytes (Chunk.new ⟨t0, t1, t2, t3⟩ d)) 0
        ≠ ((Chunk.bytes (Chunk.new ⟨t0, t1, t2, t3⟩ d)).length + (2 ^ 32 - 12)) % 2 ^ 32) := by
    rw [hread0, hBlen]
    omega
  rw [if_neg hcond]
  have h8 : ¬ (Chunk.bytes (Chunk.new ⟨t0, t1, t2, t3⟩ d)).length < 8 := by omega
  rw [if_neg h8]
  rw [hg4, hg5, hg6, hg7, ChunkType.tryFrom, if_pos ht]
  simp only []
  have hco : ¬ (Chunk.bytes (Chunk.new ⟨t0, t1, t2, t3⟩ d)).length - 4 < 8 := by omega
  rw [if_neg hco, hdata, hcrcread]
  have hcrceq : ¬ (crc32 [t0, t1, t2, t3] d ≠ crc32 [t0, t1, t2, t3] d) := fun hne => hne rfl
  rw [if_neg hcrceq, hread0]
  simp [Chunk.new, ChunkType.bytes, hmod]
  omega

/-- Witness for the amended C2 on the `"RuSt"` type and a 1-byte payload. -/
theorem encode_decode_roundtrip_witness :
    [82, 117, 83, 116].all isAsciiAlphabetic = true
    ∧ ([7] : List Nat).length ≤ 2 ^ 31
    ∧ Chunk.tryFrom (Chunk.bytes (Chunk.new ⟨82, 117, 83, 116⟩ [7]))
      = .ok (Chunk.new ⟨82, 117, 83, 116⟩ [7]) :=
  ⟨by decide, by decide,
   encode_decode_roundtrip 82 117 83 116 [7] (by decide) (by decide)⟩

/-! ## Serialization inverts decoding (C3) -/

theorem isBytes_getD (v : List Nat) (hv : IsBytes v) (i : Nat) (h : i < v.length) :
    v.getD i 0 < 256 := by
  rw [List.getD_eq_getElem?_getD, List.getElem?_eq_getElem h]
  simp only [Option.getD_some]
  exact hv _ (List.getElem_mem h)

theorem getD_drop (v : List Nat) (n m : Nat) :
    (v.drop n).getD m 0 = v.getD (n + m) 0 := by
  rw [List.getD_eq_getElem?_getD, List.getD_eq_getElem?_getD, List.getElem?_drop]

theorem take_four (v : List Nat) (h : 4 ≤ v.length) :
    v.take 4 = [v.getD 0 0, v.getD 1 0, v.getD 2 0, v.getD 3 0] := by
  match v with
  | a :: b :: c :: d :: rest => rfl
  | [] => simp at h
  | [a] => simp at h
  | [a, b] => simp at h
  | [a, b, c] => simp at h

theorem drop_eq_four (v : List Nat) (i : Nat) (h : v.length = i + 4) :
    v.drop i = [v.getD i 0, v.getD (i + 1) 0, v.getD (i + 2) 0, v.getD (i + 3) 0] := by
  have hlen : (v.drop i).length = 4 := by
    rw [List.length_drop]
    omega
  have h4 : 4 ≤ (v.drop i).length := by omega
  rw [← List.take_length (v.drop i), hlen, take_four _ h4,
    getD_drop, getD_drop, getD_drop, getD_drop, Nat.add_zero]

/-- Serializing back the big-endian `u32` read out of a byte buffer
reproduces the four bytes read. -/
theorem u32beBytes_readBe (v : List Nat) (hv : IsBytes v) (i : Nat) (h : i + 3 < v.length) :
    u32beBytes (readBe v i)
      = [v.getD i 0, v.getD (i + 1) 0, v.getD (i + 2) 0, v.getD (i + 3) 0] := by
  have b0 := isBytes_getD v hv i (by omega)
  have b1 := isBytes_getD v hv (i + 1) (by omega)
  have b2 := isBytes_getD v hv (i + 2) (by omega)
  have b3 := isBytes_getD v hv (i + 3) (by omega)
  unfold u32beBytes readBe u32ofBe
  simp only [List.cons.injEq, and_true]
  exact ⟨by omega, by omega, by omega, by omega⟩

/-- C3: for every byte buffer that `Chunk::try_from` accepts, the
accepted chunk's `bytes()` output is byte-for-byte the original buffer
(big-endian length, then type bytes, then data, then big-endian crc). -/
theorem decode_encode_exact_inverse (v : List Nat) (c : Chunk)
    (hv : IsBytes v) (h : Chunk.tryFrom v = .ok c) :
    c.bytes = v := by
  obtain ⟨h12, hle, heq, hall, hlen, hty, hdata, hcrcr, hcrc⟩ := tryFrom_ok_inversion v c h
  have e1 : v.take 4 ++ v.drop 4 = v := List.take_append_drop 4 v
  have e2 : (v.drop 4).take 4 ++ (v.drop 4).drop 4 = v.drop 4 := List.take_append_drop 4 _
  have e3 : (v.drop 4).drop 4 = v.drop 8 := by
    rw [List.drop_drop]
  have e4 : (v.drop 8).take (v.length - 12) ++ (v.drop 8).drop (v.length - 12) = v.drop 8 :=
    List.take_append_drop _ _
  have e5 : (v.drop 8).drop (v.length - 12) = v.drop (v.length - 4) := by
    rw [List.drop_drop]
    have hi : 8 + (v.length - 12) = v.length - 4 := by omega
    rw [hi]
  have hsplit : v.take 4 ++ ((v.drop 4).take 4 ++ ((v.drop 8).take (v.length - 12)
      ++ v.drop (v.length - 4))) = v := by
    rw [← e5, e4, ← e3, e2, e1]
  have hA : u32beBytes c.length = v.take 4 := by
    rw [hlen, u32beBytes_readBe v hv 0 (by omega), take_four v (by omega)]
  have hB : c.ty.bytes = (v.drop 4).take 4 := by
    rw [hty, take_four (v.drop 4) (by rw [List.length_drop]; omega),
      getD_drop, getD_drop, getD_drop, getD_drop]
    simp [ChunkType.bytes]
  have hD : u32beBytes c.crc = v.drop (v.length - 4) := by
    rw [hcrcr, u32beBytes_readBe v hv (v.length - 4) (by omega),
      drop_eq_four v (v.length - 4) (by omega)]
  rw [Chunk.bytes, hA, hB, hdata, hD, List.append_assoc, List.append_assoc]
  exact hsplit

/-- Witness for C3 on the serialized empty `"RuSt"` chunk. -/
theorem decode_encode_exact_inverse_witness :
    IsBytes rustEmptyBuf
    ∧ Chunk.bytes ⟨0, rust, [], 3565422908⟩ = rustEmptyBuf :=
  ⟨by decide,
   decode_encode_exact_inverse rustEmptyBuf ⟨0, rust, [], 3565422908⟩ (by decide) (by decide)⟩

/-! ## Injectivity of the CRC state update (towards C4) -/

theorem xor_right_cancel (a b m : Nat) (h : a ^^^ m = b ^^^ m) : a = b := by
  have h2 := congrArg (fun y => y ^^^ m) h
  simpa [Nat.xor_assoc, Nat.xor_self, Nat.xor_zero] using h2

theorem xor_left_cancel (m a b : Nat) (h : m ^^^ a = m ^^^ b) : a = b := by
  have h2 := congrArg (fun y => m ^^^ y) h
  simpa [← Nat.xor_assoc, Nat.xor_self, Nat.zero_xor] using h2

/-- XOR with the CRC polynomial flips bit 31, so it maps values below
`2 ^ 31` above it. -/
theorem xor_poly_ge (a : Nat) (h : a < 2 ^ 31) : 2 ^ 31 ≤ a ^^^ 0xedb88320 := by
  apply Nat.testBit_implies_ge
  rw [Nat.testBit_xor, Nat.testBit_lt_two_pow h]
  rfl

theorem crcStep_inj (c1 c2 : Nat) (h1 : c1 < 2 ^ 32) (h2 : c2 < 2 ^ 32)
    (h : crcStep c1 = crcStep c2) : c1 = c2 := by
  have d1 : c1 >>> 1 = c1 / 2 := by
    rw [Nat.shiftRight_eq_div_pow, pow_one]
  have d2 : c2 >>> 1 = c2 / 2 := by
    rw [Nat.shiftRight_eq_div_pow, pow_one]
  simp only [crcStep, Nat.and_one_is_mod, d1, d2] at h
  have q1 : c1 / 2 < 2 ^ 31 := by omega
  have q2 : c2 / 2 < 2 ^ 31 := by omega
  rcases Nat.mod_two_eq_zero_or_one c1 with hc1 | hc1 <;>
    rcases Nat.mod_two_eq_zero_or_one c2 with hc2 | hc2
  · rw [if_neg (by omega), if_neg (by omega)] at h
    omega
  · rw [if_neg (by omega), if_pos hc2] at h
    have := xor_poly_ge (c2 / 2) q2
    omega
  · rw [if_pos hc1, if_neg (by omega)] at h
    have := xor_poly_ge (c1 / 2) q1
    omega
  · rw [if_pos hc1, if_pos hc2] at h
    have heq : c1 / 2 = c2 / 2 := xor_right_cancel _ _ _ h
    omega

theorem crcStep_iterate_inj (k : Nat) : ∀ c1 c2 : Nat, c1 < 2 ^ 32 → c2 < 2 ^ 32 →
    crcStep^[k] c1 = crcStep^[k] c2 → c1 = c2 := by
  induction k with
  | zero => intro c1 c2 _ _ h; exact h
  | succ k ih =>
    intro c1 c2 h1 h2 h
    rw [Function.iterate_succ_apply, Function.iterate_succ_apply] at h
    exact crcStep_inj c1 c2 h1 h2 (ih _ _ (crcStep_lt c1 h1) (crcStep_lt c2 h2) h)

/-- Different bytes folded into the same CRC state give different states. -/
theorem crcUpd_ne_of_byte_ne (c b1 b2 : Nat) (hc : c < 2 ^ 32)
    (hb1 : b1 < 256) (hb2 : b2 < 256) (hne : b1 ≠ b2) : crcUpd c b1 ≠ crcUpd c b2 := by
  rw [crcUpd_eq_spec c b1 hb1, crcUpd_eq_spec c b2 hb2]
  intro h
  exact hne (xor_left_cancel c b1 b2
    (crcStep_iterate_inj 8 _ _ (Nat.xor_lt_two_pow hc (by omega))
      (Nat.xor_lt_two_pow hc (by omega)) h))

/-- The byte update of the CRC state is injective in the state. -/
theorem crcUpd_inj (c1 c2 b : Nat) (h1 : c1 < 2 ^ 32) (h2 : c2 < 2 ^ 32) (hb : b < 256)
    (h : crcUpd c1 b = crcUpd c2 b) : c1 = c2 := by
  rw [crcUpd_eq_spec _ _ hb, crcUpd_eq_spec _ _ hb] at h
  have h3 := crcStep_iterate_inj 8 _ _ (Nat.xor_lt_two_pow h1 (by omega))
    (Nat.xor_lt_two_pow h2 (by omega)) h
  exact xor_right_cancel _ _ _ h3

theorem foldl_crcUpd_ne (l : List Nat) : ∀ c1 c2 : Nat, c1 < 2 ^ 32 → c2 < 2 ^ 32 →
    (∀ b ∈ l, b < 256) → c1 ≠ c2 → l.foldl crcUpd c1 ≠ l.foldl crcUpd c2 := by
  induction l with
  | nil => intro c1 c2 _ _ _ hne; exact hne
  | cons a t ih =>
    intro c1 c2 h1 h2 hl hne
    simp only [List.foldl_cons]
    apply ih _ _ (crcUpd_lt _ _ h1) (crcUpd_lt _ _ h2) (fun b hb => hl b (by simp [hb]))
    intro h
    exact hne (crcUpd_inj c1 c2 a h1 h2 (hl a (by simp)) h)

/-- Replacing one byte of the folded list by a different byte changes
the final CRC state. -/
theorem foldl_crcUpd_set_ne (l : List Nat) : ∀ k : Nat, (∀ b ∈ l, b < 256) → k < l.length →
    ∀ x : Nat, x < 256 → x ≠ l.getD k 0 → ∀ c : Nat, c < 2 ^ 32 →
    (l.set k x).foldl crcUpd c ≠ l.foldl crcUpd c := by
  induction l with
  | nil => intro k _ hk; simp at hk
  | cons a t ih =>
    intro k hl hk x hx hne c hc
    cases k with
    | zero =>
      simp only [List.set_cons_zero, List.foldl_cons]
      apply foldl_crcUpd_ne t _ _ (crcUpd_lt _ _ hc) (crcUpd_lt _ _ hc)
        (fun b hb => hl b (by simp [hb]))
      exact crcUpd_ne_of_byte_ne c x a hc hx (hl a (by simp)) (by simpa using hne)
    | succ k =>
      simp only [List.set_cons_succ, List.foldl_cons]
      exact ih k (fun b hb => hl b (by simp [hb])) (by simpa using hk) x hx
        (by simpa using hne) _ (crcUpd_lt _ _ hc)

/-- Changing one byte of the payload changes the CRC-32. -/
theorem crc32_set_ne (ty d : List Nat) (hd : ∀ b ∈ d, b < 256) (k x : Nat)
    (hk : k < d.length) (hx : x < 256) (hne : x ≠ d.getD k 0) :
    crc32 ty (d.set k x) ≠ crc32 ty d := by
  unfold crc32
  intro h
  have h2 := xor_right_cancel _ _ _ h
  rw [List.foldl_append, List.foldl_append] at h2
  exact foldl_crcUpd_set_ne d k hd hk x hx hne _ (foldl_crcUpd_lt ty _ (by norm_num)) h2

/-! ## Bit flips and buffer updates (towards C4) -/

/-- Flipping a bit changes the byte. -/
theorem xor_bit_ne (b j : Nat) : b ^^^ 2 ^ j ≠ b := by
  intro h
  have h2 := congrArg (fun y => Nat.testBit y j) h
  simp [Nat.testBit_xor, Nat.testBit_two_pow_self] at h2

/-- Flipping one of the low 8 bits keeps a byte a byte. -/
theorem xor_bit_lt (b j : Nat) (hb : b < 256) (hj : j < 8) : b ^^^ 2 ^ j < 256 := by
  have h1 : 2 ^ j ≤ 2 ^ 7 := Nat.pow_le_pow_right (by norm_num) (by omega)
  have h2 : b ^^^ 2 ^ j < 2 ^ 8 := Nat.xor_lt_two_pow (by omega) (by omega)
  omega

theorem getD_set_ne (v : List Nat) (i k x : Nat) (h : i ≠ k) :
    (v.set i x).getD k 0 = v.getD k 0 := by
  rw [List.getD_eq_getElem?_getD, List.getD_eq_getElem?_getD, List.getElem?_set_ne h]

theorem getD_set_self (v : List Nat) (i x : Nat) (h : i < v.length) :
    (v.set i x).getD i 0 = x := by
  rw [List.getD_eq_getElem?_getD, List.getElem?_set_self h, Option.getD_some]

/-- A big-endian read is unaffected by a set strictly outside its window. -/
theorem readBe_set_outside (v : List Nat) (i p x : Nat) (h : i < p ∨ p + 3 < i) :
    readBe (v.set i x) p = readBe v p := by
  unfold readBe
  rw [getD_set_ne _ _ _ _ (by omega), getD_set_ne _ _ _ _ (by omega),
    getD_set_ne _ _ _ _ (by omega), getD_set_ne _ _ _ _ (by omega)]

/-- `u32::from_be_bytes` is injective on byte quadruples. -/
theorem u32ofBe_inj (a0 a1 a2 a3 b0 b1 b2 b3 : Nat)
    (ha0 : a0 < 256) (ha1 : a1 < 256) (ha2 : a2 < 256) (ha3 : a3 < 256)
    (hb0 : b0 < 256) (hb1 : b1 < 256) (hb2 : b2 < 256) (hb3 : b3 < 256)
    (h : u32ofBe a0 a1 a2 a3 = u32ofBe b0 b1 b2 b3) :
    a0 = b0 ∧ a1 = b1 ∧ a2 = b2 ∧ a3 = b3 := by
  unfold u32ofBe at h
  exact ⟨by omega, by omega, by omega, by omega⟩

/-- A big-endian read changes when a byte inside its window is replaced
by a different byte. -/
theorem readBe_set_within_ne (v : List Nat) (hv : IsBytes v) (p i x : Nat)
    (hip : p ≤ i) (hi3 : i ≤ p + 3) (hpv : p + 3 < v.length)
    (hx : x < 256) (hxe : x ≠ v.getD i 0) :
    readBe (v.set i x) p ≠ readBe v p := by
  intro h
  unfold readBe at h
  have hb : ∀ q, q < v.length → v.getD q 0 < 256 := fun q hq => isBytes_getD v hv q hq
  have hbw : ∀ q, q < v.length → (v.set i x).getD q 0 < 256 := by
    intro q hq
    by_cases hqi : i = q
    · rw [← hqi, getD_set_self v i x (by omega)]
      exact hx
    · rw [getD_set_ne v i q x hqi]
      exact hb q hq
  have hcomp := u32ofBe_inj _ _ _ _ _ _ _ _
    (hbw p (by omega)) (hbw (p + 1) (by omega)) (hbw (p + 2) (by omega)) (hbw (p + 3) (by omega))
    (hb p (by omega)) (hb (p + 1) (by omega)) (hb (p + 2) (by omega)) (hb (p + 3) (by omega)) h
  have hcase : i = p ∨ i = p + 1 ∨ i = p + 2 ∨ i = p + 3 := by omega
  rcases hcase with hi | hi | hi | hi
  · have h1 := hcomp.1
    rw [hi, getD_set_self v p x (by omega)] at h1
    rw [hi] at hxe
    exact hxe h1
  · have h1 := hcomp.2.1
    rw [hi, getD_set_self v (p + 1) x (by omega)] at h1
    rw [hi] at hxe
    exact hxe h1
  · have h1 := hcomp.2.2.1
    rw [hi, getD_set_self v (p + 2) x (by omega)] at h1
    rw [hi] at hxe
    exact hxe h1
  · have h1 := hcomp.2.2.2
    rw [hi, getD_set_self v (p + 3) x (by omega)] at h1
    rw [hi] at hxe
    exact hxe h1

theorem getD_take (v : List Nat) (n m : Nat) (h : m < n) :
    (v.take n).getD m 0 = v.getD m 0 := by
  rw [List.getD_eq_getElem?_getD, List.getD_eq_getElem?_getD, List.getElem?_take_of_lt h]

/-- Walking `Chunk::try_from` down to the CRC comparison: a buffer that
passes every guard but fails the CRC check is rejected with the
CRC-mismatch error carrying the read and computed values. -/
theorem tryFrom_crcMismatch_walk (w : List Nat)
    (h12 : 12 ≤ w.length)
    (hguard : ¬ (readBe w 0 > 2 ^ 31
      ∨ readBe w 0 ≠ (w.length + (2 ^ 32 - 12)) % 2 ^ 32))
    (hall : [w.getD 4 0, w.getD 5 0, w.getD 6 0, w.getD 7 0].all isAsciiAlphabetic = true)
    (hne : readBe w (w.length - 4) ≠ crc32 [w.getD 4 0, w.getD 5 0, w.getD 6 0, w.getD 7 0]
      ((w.drop 8).take (w.length - 4 - 8))) :
    Chunk.tryFrom w = .error (.crcMismatch (readBe w (w.length - 4))
      (crc32 [w.getD 4 0, w.getD 5 0, w.getD 6 0, w.getD 7 0]
        ((w.drop 8).take (w.length - 4 - 8)))) := by
  simp only [Chunk.tryFrom]
  rw [if_neg (by omega), if_neg hguard, if_neg (by omega), ChunkType.tryFrom, if_pos hall]
  simp only []
  rw [if_neg (by omega), if_pos hne]

/-- C4: tamper detection — for every byte buffer accepted by
`Chunk::try_from` and every single-bit flip inside the payload region or
the stored-CRC region (any byte position `i` with `8 ≤ i < len`, any bit
`j < 8`), decoding the flipped buffer fails with the CRC-mismatch error:
the chunk is rejected outright. -/
theorem tamper_detection (v : List Nat) (c : Chunk) (hv : IsBytes v)
    (h : Chunk.tryFrom v = .ok c) (i j : Nat)
    (hi8 : 8 ≤ i) (hiv : i < v.length) (hj : j < 8) :
    ∃ r cc, Chunk.tryFrom (v.set i (v.getD i 0 ^^^ 2 ^ j))
      = .error (.crcMismatch r cc) := by
  obtain ⟨h12, hle, heq, hall, hlen, hty, hdata, hcrcr, hcrc⟩ := tryFrom_ok_inversion v c h
  set x := v.getD i 0 ^^^ 2 ^ j with hxdef
  set w := v.set i x with hwdef
  have hxlt : x < 256 := xor_bit_lt _ _ (isBytes_getD v hv i hiv) hj
  have hxne : x ≠ v.getD i 0 := xor_bit_ne _ _
  have hwlen : w.length = v.length := by
    rw [hwdef, List.length_set]
  have hmatch : readBe v (v.length - 4)
      = crc32 [v.getD 4 0, v.getD 5 0, v.getD 6 0, v.getD 7 0]
        ((v.drop 8).take (v.length - 12)) := by
    rw [← hcrcr, hcrc, hdata]
  have hr0 : readBe w 0 = readBe v 0 := readBe_set_outside v i 0 x (by omega)
  have hg4 : w.getD 4 0 = v.getD 4 0 := getD_set_ne v i 4 x (by omega)
  have hg5 : w.getD 5 0 = v.getD 5 0 := getD_set_ne v i 5 x (by omega)
  have hg6 : w.getD 6 0 = v.getD 6 0 := getD_set_ne v i 6 x (by omega)
  have hg7 : w.getD 7 0 = v.getD 7 0 := getD_set_ne v i 7 x (by omega)
  have hdropw : w.drop 8 = (v.drop 8).set (i - 8) x := by
    rw [hwdef, List.drop_set, if_neg (by omega)]
  have hdlen : (v.drop 8).length = v.length - 8 := List.length_drop _ _
  have hidx : w.length - 4 - 8 = v.length - 12 := by omega
  have hwall : [w.getD 4 0, w.getD 5 0, w.getD 6 0, w.getD 7 0].all isAsciiAlphabetic
      = true := by
    rw [hg4, hg5, hg6, hg7]
    exact hall
  have hguard : ¬ (readBe w 0 > 2 ^ 31
      ∨ readBe w 0 ≠ (w.length + (2 ^ 32 - 12)) % 2 ^ 32) := by
    rw [hr0, hwlen]
    omega
  by_cases hreg : i < v.length - 4
  · -- flip inside the payload region: stored CRC unchanged, computed CRC changes
    have hdw : (w.drop 8).take (w.length - 4 - 8)
        = ((v.drop 8).take (v.length - 12)).set (i - 8) x := by
      rw [hidx, hdropw, List.set_take]
    have hcw : readBe w (w.length - 4) = readBe v (v.length - 4) := by
      rw [hwlen, hwdef]
      exact readBe_set_outside v i (v.length - 4) x (by omega)
    have hcalc_ne : crc32 [v.getD 4 0, v.getD 5 0, v.getD 6 0, v.getD 7 0]
        (((v.drop 8).take (v.length - 12)).set (i - 8) x)
        ≠ crc32 [v.getD 4 0, v.getD 5 0, v.getD 6 0, v.getD 7 0]
          ((v.drop 8).take (v.length - 12)) := by
      apply crc32_set_ne
      · intro b hb
        exact hv b (List.mem_of_mem_drop (List.mem_of_mem_take hb))
      · rw [List.length_take, hdlen]
        omega
      · exact hxlt
      · rw [getD_take _ _ _ (by omega), getD_drop]
        have h8i : 8 + (i - 8) = i := by omega
        rw [h8i]
        exact hxne
    exact ⟨readBe w (w.length - 4),
      crc32 [w.getD 4 0, w.getD 5 0, w.getD 6 0, w.getD 7 0]
        ((w.drop 8).take (w.length - 4 - 8)),
      tryFrom_crcMismatch_walk w (by omega) hguard hwall (by
        rw [hcw, hg4, hg5, hg6, hg7, hdw, hmatch]
        exact hcalc_ne.symm)⟩
  · -- flip inside the stored-CRC region: computed CRC unchanged, read CRC changes
    have hdw : (w.drop 8).take (w.length - 4 - 8) = (v.drop 8).take (v.length - 12) := by
      rw [hidx, hdropw, List.set_take, List.set_eq_of_length_le]
      rw [List.length_take, hdlen]
      omega
    have hcw_ne : readBe w (w.length - 4) ≠ readBe v (v.length - 4) := by
      rw [hwlen, hwdef]
      exact readBe_set_within_ne v hv (v.length - 4) i x (by omega) (by omega) (by omega)
        hxlt hxne
    exact ⟨readBe w (w.length - 4),
      crc32 [w.getD 4 0, w.getD 5 0, w.getD 6 0, w.getD 7 0]
        ((w.drop 8).take (w.length - 4 - 8)),
      tryFrom_crcMismatch_walk w (by omega) hguard hwall (by
        rw [hg4, hg5, hg6, hg7, hdw, ← hmatch]
        exact hcw_ne)⟩

/-- Witness for C4: the serialized `"RuSt"` chunk with payload `[7]` and
a flip of bit 0 of the payload byte (position 8). -/
theorem tamper_detection_witness :
    IsBytes (Chunk.bytes (Chunk.new rust [7]))
    ∧ 8 ≤ 8 ∧ 8 < (Chunk.bytes (Chunk.new rust [7])).length ∧ 0 < 8
    ∧ ∃ r cc, Chunk.tryFrom ((Chunk.bytes (Chunk.new rust [7])).set 8
        ((Chunk.bytes (Chunk.new rust [7])).getD 8 0 ^^^ 2 ^ 0))
      = .error (.crcMismatch r cc) :=
  ⟨by decide, by decide, by decide, by decide,
   tamper_detection (Chunk.bytes (Chunk.new rust [7])) (Chunk.new rust [7]) (by decide)
     (by decide) 8 0 (by decide) (by decide) (by decide)⟩

/-! ## Length-guard counterexample buffers (C6, C10) -/

/-- A buffer declaring length `2 ^ 31` (which exceeds `2 ^ 31 - 1`):
type bytes `"Ru1t"`, `2 ^ 31` zero data bytes, zero stored crc. -/
def bigDeclaredBuf : List Nat :=
  [128, 0, 0, 0, 82, 117, 49, 116] ++ (List.replicate (2 ^ 31) 0 ++ [0, 0, 0, 0])

/-- C6 counterexample: this buffer's declared big-endian length `2 ^ 31`
exceeds `2 ^ 31 - 1`, yet `Chunk::try_from` does not fail with the
invalid-length error — the guard `length > 2u32.pow(31)` passes and the
decoder proceeds to the type check, failing with the non-ASCII error. -/
theorem declared_length_2_pow_31_passes_guard :
    2 ^ 31 - 1 < readBe bigDeclaredBuf 0
    ∧ Chunk.tryFrom bigDeclaredBuf = .error .nonAscii := by
  have hread : readBe bigDeclaredBuf 0 = 2 ^ 31 := by rfl
  have hlen : bigDeclaredBuf.length = 2 ^ 31 + 12 := by
    unfold bigDeclaredBuf
    rw [List.length_append, List.length_append, List.length_replicate]
    have h1 : ([128, 0, 0, 0, 82, 117, 49, 116] : List Nat).length = 8 := rfl
    have h2 : ([0, 0, 0, 0] : List Nat).length = 4 := rfl
    omega
  refine ⟨by rw [hread]; omega, ?_⟩
  simp only [Chunk.tryFrom]
  rw [if_neg (by omega), if_neg (by rw [hread, hlen]; omega), if_neg (by omega)]
  have hga : bigDeclaredBuf.getD 4 0 = 82 := rfl
  have hgb : bigDeclaredBuf.getD 5 0 = 117 := rfl
  have hgc : bigDeclaredBuf.getD 6 0 = 49 := rfl
  have hgd : bigDeclaredBuf.getD 7 0 = 116 := rfl
  rw [hga, hgb, hgc, hgd,
    show ChunkType.tryFrom 82 117 49 116 = .error .nonAscii from by decide]

/-- A buffer declaring length 0 whose total length is `2 ^ 32 + 12`:
type bytes `"Ru1t"`, `2 ^ 32` zero data bytes, zero stored crc. -/
def overLongBuf : List Nat :=
  [0, 0, 0, 0, 82, 117, 49, 116] ++ (List.replicate (2 ^ 32) 0 ++ [0, 0, 0, 0])

/-- C10 counterexample: this buffer is longer than 12 plus its declared
length (`2 ^ 32 + 12 > 12 + 0`), yet `Chunk::try_from` does not reject
it with the invalid-length error — the `value.len() as u32` cast wraps,
the length guard passes, and the decoder proceeds to the type check,
failing with the non-ASCII error. -/
theorem trailing_bytes_pass_length_guard :
    12 + readBe overLongBuf 0 < overLongBuf.length
    ∧ Chunk.tryFrom overLongBuf = .error .nonAscii := by
  have hread : readBe overLongBuf 0 = 0 := by rfl
  have hlen : overLongBuf.length = 2 ^ 32 + 12 := by
    unfold overLongBuf
    rw [List.length_append, List.length_append, List.length_replicate]
    have h1 : ([0, 0, 0, 0, 82, 117, 49, 116] : List Nat).length = 8 := rfl
    have h2 : ([0, 0, 0, 0] : List Nat).length = 4 := rfl
    omega
  refine ⟨by rw [hread]; omega, ?_⟩
  simp only [Chunk.tryFrom]
  rw [if_neg (by omega), if_neg (by rw [hread, hlen]; omega), if_neg (by omega)]
  have hga : overLongBuf.getD 4 0 = 82 := rfl
  have hgb : overLongBuf.getD 5 0 = 117 := rfl
  have hgc : overLongBuf.getD 6 0 = 49 := rfl
  have hgd : overLongBuf.getD 7 0 = 116 := rfl
  rw [hga, hgb, hgc, hgd,
    show ChunkType.tryFrom 82 117 49 116 = .error .nonAscii from by decide]

end Pngme
